import Mathlib

/-!
Verification of `cursor_agent_tools`: a shallow embedding in Lean 4 of the
permission evaluation logic (`cursor_agent_tools/permissions.py`) and of the
line-range edit engine (`cursor_agent_tools/tools/file_tools.py`), together
with theorems settling the specification claims about them.

Naming note: the specification uses the names `auto_approve`, `protect_delete`,
`denylist`/`allowlist` for the fields called `yolo_mode`,
`delete_file_protection`, `command_denylist`/`command_allowlist` in the source;
the Lean definitions keep the source's names.
-/

namespace CursorAgent

/-! ## Python string primitives used by the code

Python's `needle in haystack` on strings is substring containment; we model
strings through their character lists.  `List.isInfixOf` matches Python's
semantics, including that the empty string is a substring of everything. -/

/-- `prefixCheck needle l` holds when `needle` is a prefix of `l`. -/
def prefixCheck : List Char → List Char → Bool
  | [], _ => true
  | _ :: _, [] => false
  | a :: as, b :: bs => a == b && prefixCheck as bs

/-- `infixCheck needle l` holds when `needle` occurs contiguously in `l`. -/
def infixCheck (needle : List Char) : List Char → Bool
  | [] => prefixCheck needle []
  | b :: bs => prefixCheck needle (b :: bs) || infixCheck needle bs

/-- Python `needle in haystack` (substring containment). -/
def pyIn (needle haystack : String) : Bool :=
  infixCheck needle.data haystack.data

/-- Python `d.get(key, default)` for a string-valued dict, modelled as an
association list in insertion order (Python dict keys are unique). -/
def dictGet (d : List (String × String)) (key dflt : String) : String :=
  match d.find? (fun kv => kv.1 == key) with
  | some kv => kv.2
  | none => dflt

/-! ## Permission model (`permissions.py`) -/

/-- `PermissionStatus` enum from `permissions.py`. -/
inductive PermissionStatus where
  | granted
  | denied
  | needs_confirmation
deriving DecidableEq, Repr

/-- `PermissionOptions` from `permissions.py` (the `yolo_prompt` field only
affects logging and is omitted). -/
structure PermissionOptions where
  yolo_mode : Bool := false
  command_allowlist : List String := []
  command_denylist : List String := []
  delete_file_protection : Bool := true
deriving Repr

/-- `PermissionRequest` from `permissions.py`; `details` is a dict of which
the evaluator only ever reads the string value at key `"command"`. -/
structure PermissionRequest where
  operation : String
  details : List (String × String)
deriving Repr

/-- The command string the evaluator extracts: `request.details.get("command", "")`. -/
def PermissionRequest.command (req : PermissionRequest) : String :=
  dictGet req.details "command" ""

/-- `PermissionManager._evaluate_permission` from `permissions.py`,
mirroring its control flow:
1. denylist check for `run_terminal_command` (guarded by a non-emptiness
   truthiness test, as in the source);
2. `delete_file` protection;
3. YOLO-mode evaluation, where for terminal commands a non-empty allowlist
   with no matching entry forces confirmation (with a dedicated branch for
   commands containing `"rm -rf /"`, which also returns needs_confirmation);
4. default: needs confirmation. -/
def evaluate_permission (opts : PermissionOptions) (req : PermissionRequest) :
    PermissionStatus :=
  if req.operation = "run_terminal_command" ∧ opts.command_denylist ≠ [] ∧
      opts.command_denylist.any (fun denied => pyIn denied req.command) then
    .denied
  else if req.operation = "delete_file" ∧ opts.delete_file_protection then
    .needs_confirmation
  else if opts.yolo_mode then
    if req.operation = "run_terminal_command" then
      if opts.command_allowlist ≠ [] ∧
          ¬ opts.command_allowlist.any (fun allowed => pyIn allowed req.command) then
        if pyIn "rm -rf /" req.command then
          .needs_confirmation
        else
          .needs_confirmation
      else
        .granted
    else
      .granted
  else
    .needs_confirmation

/-- A non-empty needle is never a substring of the empty string. -/
theorem pyIn_empty_haystack (d : String) (h : d ≠ "") : pyIn d "" = false := by
  unfold pyIn infixCheck
  cases hd : d.data with
  | nil =>
    exact absurd (by cases d with | mk l => cases hd; rfl) h
  | cons c cs =>
    simp [prefixCheck, hd]

end CursorAgent

namespace CursorAgent

/-! ## Line-range edit engine (`file_tools.py`) -/

/-- Line-boundary characters recognised by Python `str.splitlines`. -/
def isLineBoundary (c : Char) : Bool :=
  c == '\n' || c == '\r' || c == Char.ofNat 0x0b || c == Char.ofNat 0x0c ||
  c == Char.ofNat 0x1c || c == Char.ofNat 0x1d || c == Char.ofNat 0x1e ||
  c == Char.ofNat 0x85 || c == Char.ofNat 0x2028 || c == Char.ofNat 0x2029

/-- Helper for `pySplitlines`: `cur` accumulates the current line in reverse;
`prevCR` records that the previous character was a carriage return whose line
has already been flushed, so a directly following `'\n'` is consumed silently
(`"\r\n"` counts as a single boundary).  A final unterminated line is kept;
a trailing boundary does not produce an extra empty line. -/
def pySplitlinesAux : List Char → List Char → Bool → List String
  | [], cur, _ => if cur.isEmpty then [] else [String.mk cur.reverse]
  | c :: rest, cur, prevCR =>
    if prevCR && c == '\n' then
      pySplitlinesAux rest cur false
    else if isLineBoundary c then
      String.mk cur.reverse :: pySplitlinesAux rest [] (c == '\r')
    else
      pySplitlinesAux rest (c :: cur) false

/-- Python `str.splitlines()`. -/
def pySplitlines (s : String) : List String :=
  pySplitlinesAux s.data [] false

/-- Python `"\n".join(lines)`. -/
def joinLines : List String → String
  | [] => ""
  | [s] => s
  | s :: rest => s ++ "\n" ++ joinLines rest

/-- Whitespace stripped by Python `int()` around a numeric literal. -/
def pyIsSpace (c : Char) : Bool :=
  c == ' ' || c == '\t' || c == '\n' || c == '\r' ||
  c == Char.ofNat 0x0b || c == Char.ofNat 0x0c

/-- Value of a run of decimal digits. -/
def natOfDigits (l : List Char) : Nat :=
  l.foldl (fun acc c => acc * 10 + (c.toNat - 48)) 0

/-- Strip leading and trailing whitespace. -/
def pyStrip (l : List Char) : List Char :=
  ((l.dropWhile pyIsSpace).reverse.dropWhile pyIsSpace).reverse

/-- Drop a single leading `'+'` sign, if present. -/
def dropPlus (l : List Char) : List Char :=
  match l with
  | c :: rest => if c == '+' then rest else c :: rest
  | [] => []

/-- Python `int(s)` for the strings that can arise as pieces of a range key
(no `'-'` can occur inside a piece, because pieces come from splitting on
`'-'`): strip surrounding whitespace, allow one leading `'+'`, then require a
non-empty run of ASCII decimal digits.  `none` models the `ValueError` the
Python call raises otherwise.  (Underscore digit grouping and non-ASCII
digits are not modelled.) -/
def pyInt? (l : List Char) : Option Nat :=
  let t := dropPlus (pyStrip l)
  if !t.isEmpty && t.all Char.isDigit then some (natOfDigits t) else none

/-- Helper for `splitOnPred`, accumulating the current piece in reverse. -/
def splitOnPredAux (p : Char → Bool) : List Char → List Char → List (List Char)
  | [], cur => [cur.reverse]
  | c :: rest, cur =>
    if p c then cur.reverse :: splitOnPredAux p rest []
    else splitOnPredAux p rest (c :: cur)

/-- Split on separator characters, keeping empty pieces, as Python
`str.split(sep)` does (the result always has one more piece than there are
separator occurrences). -/
def splitOnPred (p : Char → Bool) (l : List Char) : List (List Char) :=
  splitOnPredAux p l []

/-- Parse a range key as the edit loop does: if the key contains `'-'`, split
on it and read `int(parts[0])` and `int(parts[1])` (extra parts are ignored);
otherwise the whole key is both start and end.  `none` models the
`ValueError` caught by the per-range `except` handler, which skips the
entry. -/
def parseLineRange (key : String) : Option (Nat × Nat) :=
  if key.data.contains '-' then
    match splitOnPred (fun c => c == '-') key.data with
    | p0 :: p1 :: _ =>
      match pyInt? p0, pyInt? p1 with
      | some s, some e => some (s, e)
      | _, _ => none
    | _ => none
  else
    match pyInt? key.data with
    | some v => some (v, v)
    | none => none

/-- The sort key of a range key:
`[int(n) if n.isdigit() else 0 for n in x.replace('-', ',').split(',')]`. -/
def sortKeyOf (key : String) : List Nat :=
  (splitOnPred (fun c => c == '-' || c == ',') key.data).map
    (fun piece => if !piece.isEmpty && piece.all Char.isDigit then natOfDigits piece else 0)

/-- Python `<=` on lists of naturals: lexicographic, a strict prefix is
smaller. -/
def lexLe : List Nat → List Nat → Bool
  | [], _ => true
  | _ :: _, [] => false
  | a :: as, b :: bs => if a < b then true else if b < a then false else lexLe as bs

/-- Descending comparison used by the sort: entry `a` may stay before entry
`b` when the sort key of `b` is at most the sort key of `a`. -/
def keyGe (a b : String × String) : Bool :=
  lexLe (sortKeyOf b.1) (sortKeyOf a.1)

/-- Stable descending insertion: `a` is placed before the first element whose
key is strictly greater than its own, so elements with equal keys keep their
original relative order, as Python's stable `sorted(..., reverse=True)`
guarantees. -/
def insertDesc (a : String × String) : List (String × String) →
    List (String × String)
  | [] => [a]
  | b :: l => if keyGe a b then a :: b :: l else b :: insertDesc a l

/-- Stable descending sort of the edit entries by the sort key of their range
key, modelling `sorted(line_edits.keys(), key=..., reverse=True)` (the value
is carried along with each key; dict keys are unique, so looking the value up
afterwards is the same as carrying it). -/
def sortEditsDesc : List (String × String) → List (String × String)
  | [] => []
  | a :: l => insertDesc a (sortEditsDesc l)

/-- One iteration of the edit loop: parse the range, convert to 0-based
indices, clamp a negative start to 0 and an end beyond the original document
to its last line, skip inverted ranges, and otherwise splice the replacement
lines into the working list — Python list slice assignment
`result_lines[start_idx:end_idx + 1] = new_lines`, whose out-of-range slice
bounds clamp silently. -/
def applyRangeEdit (origLen : Nat) (result : List String) (kv : String × String) :
    List String :=
  match parseLineRange kv.1 with
  | none => result
  | some (s, e) =>
    let startIdx0 : Int := (s : Int) - 1
    let endIdx0 : Int := (e : Int) - 1
    let startIdx : Int := if startIdx0 < 0 then 0 else startIdx0
    let endIdx : Int := if endIdx0 ≥ (origLen : Int) then (origLen : Int) - 1 else endIdx0
    if startIdx > endIdx then result
    else
      result.take startIdx.toNat ++ pySplitlines kv.2 ++ result.drop (endIdx.toNat + 1)

/-- Core of `apply_line_based_edit` at the level of line lists: fold the edit
loop over the entries in descending key order, starting from a copy of the
original lines. -/
def applyLineEditsCore (origLines : List String)
    (line_edits : List (String × String)) : List String :=
  (sortEditsDesc line_edits).foldl (applyRangeEdit origLines.length) origLines

/-- `apply_line_based_edit` from `file_tools.py`: split the document into
lines, apply the ranges from bottom to top, and join with `"\n"`.  The outer
`except` handler is not modelled: no statement under the `try` can raise (the
sort key converts only digit-checked pieces, and per-range failures are
caught by the inner handler). -/
def apply_line_based_edit (original_content : String)
    (line_edits : List (String × String)) : String :=
  joinLines (applyLineEditsCore (pySplitlines original_content) line_edits)

/-! ### Vocabulary for the frame property of the edit engine

`canonicalKey` marks range keys in plain `"s"` or `"s-e"` digit form — for
such keys the sort key `[int(n) if n.isdigit() else 0 for n in ...]` agrees
with the parsed range, so the bottom-up processing order is the true range
order.  `rangeOkB` says the parsed range fits a document of `n` lines;
`rangesDisjoint` says two entries' parsed ranges do not overlap;
`uncoveredLines` collects the original lines whose 1-indexed position lies
outside every parsed range of the mapping. -/

/-- A key in canonical `"s"` or `"s-e"` form: a non-empty run of ASCII
digits, optionally followed by `'-'` and another non-empty run of digits. -/
def canonicalKey (k : String) : Bool :=
  let d0 := k.data.takeWhile Char.isDigit
  let rest := k.data.dropWhile Char.isDigit
  match rest with
  | [] => !d0.isEmpty
  | c :: d1 => !d0.isEmpty && (c == '-') && !d1.isEmpty && d1.all Char.isDigit

/-- The key parses and its range lies inside a document of `n` lines. -/
def rangeOkB (n : Nat) (kv : String × String) : Bool :=
  match parseLineRange kv.1 with
  | some (s, e) => decide (1 ≤ s) && decide (s ≤ e) && decide (e ≤ n)
  | none => false

/-- The parsed ranges of two entries do not overlap (vacuously true when a
key does not parse). -/
def rangesDisjoint (a b : String × String) : Bool :=
  match parseLineRange a.1, parseLineRange b.1 with
  | some (s1, e1), some (s2, e2) => decide (e1 < s2) || decide (e2 < s1)
  | _, _ => true

/-- The entry covers 1-indexed line `i`. -/
def entryCovers (kv : String × String) (i : Nat) : Bool :=
  match parseLineRange kv.1 with
  | some (s, e) => decide (s ≤ i) && decide (i ≤ e)
  | none => false

/-- Some entry of the mapping covers 1-indexed line `i`. -/
def coveredBy (edits : List (String × String)) (i : Nat) : Bool :=
  edits.any (fun kv => entryCovers kv i)

/-- The lines of `xs` at positions (numbered from `i`) outside every parsed
range of the mapping, in order. -/
def uncoveredFrom (edits : List (String × String)) : Nat → List String → List String
  | _, [] => []
  | i, x :: xs =>
    if coveredBy edits i then uncoveredFrom edits (i + 1) xs
    else x :: uncoveredFrom edits (i + 1) xs

/-- The original lines lying outside every parsed range of the mapping. -/
def uncoveredLines (origLines : List String) (edits : List (String × String)) :
    List String :=
  uncoveredFrom edits 1 origLines

/-! ### Order and stability properties of the descending sort -/

/-- `lexLe` is total. -/
theorem lexLe_total (a b : List Nat) : lexLe a b = true ∨ lexLe b a = true := by
  induction a generalizing b with
  | nil => exact Or.inl rfl
  | cons x xs ih =>
    cases b with
    | nil => exact Or.inr rfl
    | cons y ys =>
      rcases Nat.lt_trichotomy x y with h | h | h
      · exact Or.inl (by unfold lexLe; rw [if_pos h])
      · subst h
        unfold lexLe
        rw [if_neg (Nat.lt_irrefl x), if_neg (Nat.lt_irrefl x),
          if_neg (Nat.lt_irrefl x), if_neg (Nat.lt_irrefl x)]
        exact ih ys
      · exact Or.inr (by unfold lexLe; rw [if_pos h])

/-- `lexLe` is transitive. -/
theorem lexLe_trans {a b c : List Nat} (h1 : lexLe a b = true)
    (h2 : lexLe b c = true) : lexLe a c = true := by
  induction a generalizing b c with
  | nil => rfl
  | cons x xs ih =>
    cases b with
    | nil => exact absurd h1 (by simp [lexLe])
    | cons y ys =>
      cases c with
      | nil => exact absurd h2 (by simp [lexLe])
      | cons z zs =>
        unfold lexLe at h1 h2 ⊢
        rcases Nat.lt_trichotomy x y with hxy | hxy | hxy
        · rcases Nat.lt_trichotomy y z with hyz | hyz | hyz
          · rw [if_pos (Nat.lt_trans hxy hyz)]
          · subst hyz
            rw [if_pos hxy]
          · rw [if_neg (Nat.lt_asymm hyz), if_pos hyz] at h2
            exact absurd h2 (by simp)
        · subst hxy
          rw [if_neg (Nat.lt_irrefl x), if_neg (Nat.lt_irrefl x)] at h1
          rcases Nat.lt_trichotomy x z with hxz | hxz | hxz
          · rw [if_pos hxz]
          · subst hxz
            rw [if_neg (Nat.lt_irrefl x), if_neg (Nat.lt_irrefl x)] at h2 ⊢
            exact ih h1 h2
          · rw [if_neg (Nat.lt_asymm hxz), if_pos hxz] at h2
            exact absurd h2 (by simp)
        · rw [if_neg (Nat.lt_asymm hxy), if_pos hxy] at h1
          exact absurd h1 (by simp)

/-- `keyGe` is transitive. -/
theorem keyGe_trans {a b c : String × String} (h1 : keyGe a b = true)
    (h2 : keyGe b c = true) : keyGe a c = true :=
  lexLe_trans h2 h1

/-- If `a` is not allowed before `b`, then `b` is allowed before `a`. -/
theorem keyGe_of_not_keyGe {a b : String × String} (h : ¬ keyGe a b = true) :
    keyGe b a = true := by
  rcases lexLe_total (sortKeyOf b.1) (sortKeyOf a.1) with hl | hl
  · exact absurd hl h
  · exact hl

/-- Unfolding equation: inserting into the empty list. -/
theorem insertDesc_nil (a : String × String) : insertDesc a [] = [a] := rfl

/-- Unfolding equation: inserting into a cons. -/
theorem insertDesc_cons (a b : String × String) (l : List (String × String)) :
    insertDesc a (b :: l) =
      if keyGe a b = true then a :: b :: l else b :: insertDesc a l := rfl

/-- Unfolding equation: sorting the empty list. -/
theorem sortEditsDesc_nil : sortEditsDesc [] = [] := rfl

/-- Unfolding equation: sorting a cons. -/
theorem sortEditsDesc_cons (a : String × String) (l : List (String × String)) :
    sortEditsDesc (a :: l) = insertDesc a (sortEditsDesc l) := rfl

/-- Membership in an insertion. -/
theorem mem_insertDesc {a x : String × String} {l : List (String × String)} :
    x ∈ insertDesc a l ↔ x = a ∨ x ∈ l := by
  induction l with
  | nil => simp [insertDesc]
  | cons b m ih =>
    rw [insertDesc_cons]
    by_cases hab : keyGe a b = true
    · rw [if_pos hab]
      simp only [List.mem_cons]
    · rw [if_neg hab]
      simp only [List.mem_cons, ih]
      tauto

/-- Inserting an element that dominates the whole list puts it in front. -/
theorem insertDesc_eq_cons {a : String × String} {l : List (String × String)}
    (h : ∀ x ∈ l, keyGe a x = true) : insertDesc a l = a :: l := by
  cases l with
  | nil => rfl
  | cons b m => exact if_pos (h b (List.mem_cons_self b m))

/-- An insertion is a permutation of consing. -/
theorem insertDesc_perm (a : String × String) (l : List (String × String)) :
    List.Perm (insertDesc a l) (a :: l) := by
  induction l with
  | nil => exact List.Perm.refl _
  | cons b m ih =>
    rw [insertDesc_cons]
    by_cases hab : keyGe a b = true
    · rw [if_pos hab]
    · rw [if_neg hab]
      exact (ih.cons b).trans (List.Perm.swap a b m)

/-- The sort permutes its input. -/
theorem sortEditsDesc_perm (l : List (String × String)) :
    List.Perm (sortEditsDesc l) l := by
  induction l with
  | nil => exact List.Perm.refl _
  | cons a m ih => exact (insertDesc_perm a (sortEditsDesc m)).trans (ih.cons a)

/-- Insertion preserves sortedness (pairwise `keyGe`). -/
theorem insertDesc_pairwise {a : String × String} {l : List (String × String)}
    (hl : l.Pairwise (fun u v => keyGe u v = true)) :
    (insertDesc a l).Pairwise (fun u v => keyGe u v = true) := by
  induction l with
  | nil => simp [insertDesc]
  | cons b m ih =>
    rcases List.pairwise_cons.mp hl with ⟨hb, hm⟩
    rw [insertDesc_cons]
    by_cases hab : keyGe a b = true
    · rw [if_pos hab]
      refine List.pairwise_cons.mpr ⟨?_, hl⟩
      intro x hx
      rcases List.mem_cons.mp hx with hxb | hxm
      · subst hxb
        exact hab
      · exact keyGe_trans hab (hb x hxm)
    · rw [if_neg hab]
      refine List.pairwise_cons.mpr ⟨?_, ih hm⟩
      intro x hx
      rcases mem_insertDesc.mp hx with hxa | hxm
      · subst hxa
        exact keyGe_of_not_keyGe hab
      · exact hb x hxm

/-- The sort's output is pairwise descending. -/
theorem sortEditsDesc_pairwise (l : List (String × String)) :
    (sortEditsDesc l).Pairwise (fun u v => keyGe u v = true) := by
  induction l with
  | nil => simp [sortEditsDesc]
  | cons a m ih => exact insertDesc_pairwise ih

/-- Filtering past an element the filter drops. -/
theorem filter_insertDesc_neg (p : String × String → Bool) {a : String × String}
    (l : List (String × String)) (ha : p a = false) :
    (insertDesc a l).filter p = l.filter p := by
  induction l with
  | nil => simp [insertDesc, List.filter_cons, ha]
  | cons b m ih =>
    rw [insertDesc_cons]
    by_cases hab : keyGe a b = true
    · rw [if_pos hab]
      simp [List.filter_cons, ha]
    · rw [if_neg hab]
      simp [List.filter_cons, ih]

/-- Filtering commutes with inserting an element the filter keeps, on a
sorted list. -/
theorem filter_insertDesc_pos (p : String × String → Bool) {a : String × String}
    {l : List (String × String)} (ha : p a = true)
    (hl : l.Pairwise (fun u v => keyGe u v = true)) :
    (insertDesc a l).filter p = insertDesc a (l.filter p) := by
  induction l with
  | nil => simp [insertDesc, List.filter_cons, ha]
  | cons b m ih =>
    rcases List.pairwise_cons.mp hl with ⟨hb, hm⟩
    rw [insertDesc_cons]
    by_cases hab : keyGe a b = true
    · rw [if_pos hab]
      by_cases hpb : p b = true
      · rw [List.filter_cons, if_pos ha, List.filter_cons, if_pos hpb,
          insertDesc_cons, if_pos hab]
      · rw [List.filter_cons, if_pos ha, List.filter_cons, if_neg hpb]
        refine (insertDesc_eq_cons ?_).symm
        intro x hx
        exact keyGe_trans hab (hb x (List.mem_of_mem_filter hx))
    · rw [if_neg hab]
      by_cases hpb : p b = true
      · rw [List.filter_cons, if_pos hpb, List.filter_cons, if_pos hpb,
          insertDesc_cons, if_neg hab, ih hm]
      · rw [List.filter_cons, if_neg hpb, List.filter_cons, if_neg hpb, ih hm]

/-- The stable sort commutes with filtering. -/
theorem sortEditsDesc_filter (p : String × String → Bool)
    (l : List (String × String)) :
    sortEditsDesc (l.filter p) = (sortEditsDesc l).filter p := by
  induction l with
  | nil => rfl
  | cons a m ih =>
    by_cases hpa : p a = true
    · rw [List.filter_cons, if_pos hpa, sortEditsDesc_cons, sortEditsDesc_cons, ih,
        filter_insertDesc_pos p hpa (sortEditsDesc_pairwise m)]
    · rw [List.filter_cons, if_neg hpa, sortEditsDesc_cons, ih,
        filter_insertDesc_neg p _ (by simpa using hpa)]

/-! ### Parsing and sort keys of canonical range keys -/

/-- A digit character differs (as `==`) from any non-digit character. -/
theorem digit_beq_false {c d : Char} (h : c.isDigit = true)
    (hd : d.isDigit = false) : (c == d) = false := by
  cases hbeq : c == d
  · rfl
  · have hcd : c = d := eq_of_beq hbeq
    subst hcd
    rw [h] at hd
    exact absurd hd (by simp)

/-- Symmetric version of `digit_beq_false`. -/
theorem beq_digit_false {c d : Char} (h : c.isDigit = true)
    (hd : d.isDigit = false) : (d == c) = false := by
  cases hbeq : d == c
  · rfl
  · have hdc : d = c := eq_of_beq hbeq
    subst hdc
    rw [h] at hd
    exact absurd hd (by simp)

/-- Digits are not whitespace. -/
theorem pyIsSpace_of_digit {c : Char} (h : c.isDigit = true) :
    pyIsSpace c = false := by
  unfold pyIsSpace
  rw [digit_beq_false h (by decide), digit_beq_false h (by decide),
    digit_beq_false h (by decide), digit_beq_false h (by decide),
    digit_beq_false h (by decide), digit_beq_false h (by decide)]
  rfl

/-- `dropWhile` is the identity when no element satisfies the predicate. -/
theorem dropWhile_eq_self_of {q : Char → Bool} {l : List Char}
    (h : ∀ c ∈ l, q c = false) : l.dropWhile q = l := by
  cases l with
  | nil => rfl
  | cons c cs =>
    rw [List.dropWhile_cons, if_neg (by simp [h c (List.mem_cons_self c cs)])]

/-- Stripping whitespace from an all-digit string is the identity. -/
theorem pyStrip_of_digits {l : List Char} (h : ∀ c ∈ l, c.isDigit = true) :
    pyStrip l = l := by
  unfold pyStrip
  rw [dropWhile_eq_self_of (fun c hc => pyIsSpace_of_digit (h c hc)),
    dropWhile_eq_self_of (fun c hc =>
      pyIsSpace_of_digit (h c (List.mem_reverse.mp hc))),
    List.reverse_reverse]

/-- `pyInt?` succeeds on a non-empty all-digit string. -/
theorem pyInt?_digits {l : List Char} (hne : l ≠ [])
    (h : ∀ c ∈ l, c.isDigit = true) : pyInt? l = some (natOfDigits l) := by
  unfold pyInt?
  rw [pyStrip_of_digits h]
  have hdp : dropPlus l = l := by
    cases l with
    | nil => rfl
    | cons c cs =>
      show (if (c == '+') = true then cs else c :: cs) = c :: cs
      rw [if_neg (by
        rw [digit_beq_false (h c (List.mem_cons_self c cs)) (by decide)]
        simp)]
  have hemp : l.isEmpty = false := by
    cases l with
    | nil => exact absurd rfl hne
    | cons a as => rfl
  rw [hdp, if_pos (by
    rw [hemp, List.all_eq_true.mpr (fun x hx => h x hx)]
    rfl)]

/-- Unfolding equation: splitting the empty list. -/
theorem splitOnPredAux_nil (p : Char → Bool) (cur : List Char) :
    splitOnPredAux p [] cur = [cur.reverse] := rfl

/-- Unfolding equation: splitting a cons. -/
theorem splitOnPredAux_cons (p : Char → Bool) (c : Char) (rest cur : List Char) :
    splitOnPredAux p (c :: rest) cur =
      if p c = true then cur.reverse :: splitOnPredAux p rest []
      else splitOnPredAux p rest (c :: cur) := rfl

/-- Splitting a separator-free list yields a single piece. -/
theorem splitOnPredAux_no_sep (p : Char → Bool) (l : List Char) :
    ∀ cur, (∀ c ∈ l, p c = false) →
    splitOnPredAux p l cur = [cur.reverse ++ l] := by
  induction l with
  | nil => intro cur _; simp [splitOnPredAux_nil]
  | cons c rest ih =>
    intro cur h
    rw [splitOnPredAux_cons, if_neg (by simp [h c (List.mem_cons_self c rest)]),
      ih (c :: cur) (fun x hx => h x (List.mem_cons_of_mem c hx)),
      List.reverse_cons, List.append_assoc]
    rfl

/-- Splitting a list whose first separator occurrence is `sep` peels off the
piece before it. -/
theorem splitOnPredAux_with_sep (p : Char → Bool) (l1 : List Char) (sep : Char)
    (l2 : List Char) : ∀ cur, (∀ c ∈ l1, p c = false) → p sep = true →
    splitOnPredAux p (l1 ++ sep :: l2) cur =
      (cur.reverse ++ l1) :: splitOnPredAux p l2 [] := by
  induction l1 with
  | nil =>
    intro cur _ hsep
    rw [List.nil_append, splitOnPredAux_cons, if_pos (by simp [hsep])]
    simp
  | cons c rest ih =>
    intro cur h hsep
    rw [List.cons_append, splitOnPredAux_cons,
      if_neg (by simp [h c (List.mem_cons_self c rest)]),
      ih (c :: cur) (fun x hx => h x (List.mem_cons_of_mem c hx)) hsep,
      List.reverse_cons, List.append_assoc]
    rfl

/-- A list of digits does not contain `'-'`. -/
theorem contains_dash_false {l : List Char} (h : ∀ c ∈ l, c.isDigit = true) :
    l.contains '-' = false := by
  cases hc : l.contains '-'
  · rfl
  · rcases List.contains_iff_exists_mem_beq.mp hc with ⟨x, hx, hbx⟩
    have hdx : '-' = x := eq_of_beq hbx
    subst hdx
    have := h '-' hx
    exact absurd this (by decide)

/-- A non-empty all-digit piece passes the `isdigit` test of the sort key. -/
theorem digits_piece_cond {l : List Char} (hne : l ≠ [])
    (h : ∀ c ∈ l, c.isDigit = true) :
    (!l.isEmpty && l.all Char.isDigit) = true := by
  have hemp : l.isEmpty = false := by
    cases l with
    | nil => exact absurd rfl hne
    | cons a as => rfl
  rw [hemp, List.all_eq_true.mpr (fun x hx => h x hx)]
  rfl

/-- Parsing and sort key of a one-piece all-digit key. -/
theorem canonical_split_one {k : String} {d0 : List Char}
    (hdata : k.data = d0) (hne : d0 ≠ [])
    (hdig : ∀ c ∈ d0, c.isDigit = true) :
    parseLineRange k = some (natOfDigits d0, natOfDigits d0) ∧
      sortKeyOf k = [natOfDigits d0] := by
  have hnodash : k.data.contains '-' = false := by
    rw [hdata]
    exact contains_dash_false hdig
  constructor
  · unfold parseLineRange
    rw [if_neg (by
        intro hx
        rw [hnodash] at hx
        exact absurd hx (by decide)),
      hdata, pyInt?_digits hne hdig]
  · unfold sortKeyOf splitOnPred
    rw [hdata, splitOnPredAux_no_sep _ _ [] (fun c hc => by
        rw [digit_beq_false (hdig c hc) (by decide),
          digit_beq_false (hdig c hc) (by decide)]
        rfl),
      List.reverse_nil, List.nil_append, List.map_cons, List.map_nil,
      if_pos (digits_piece_cond hne hdig)]

/-- Parsing and sort key of a two-piece `"digits-digits"` key. -/
theorem canonical_split_two {k : String} {d0 d1 : List Char}
    (hdata : k.data = d0 ++ '-' :: d1) (hne0 : d0 ≠ []) (hne1 : d1 ≠ [])
    (hd0 : ∀ c ∈ d0, c.isDigit = true) (hd1 : ∀ c ∈ d1, c.isDigit = true) :
    parseLineRange k = some (natOfDigits d0, natOfDigits d1) ∧
      sortKeyOf k = [natOfDigits d0, natOfDigits d1] := by
  have hmem : '-' ∈ k.data := by
    rw [hdata]
    exact List.mem_append_right _ (List.mem_cons_self _ _)
  have hcont : k.data.contains '-' = true :=
    List.contains_iff_exists_mem_beq.mpr ⟨'-', hmem, by decide⟩
  have hsplitp : splitOnPred (fun x => x == '-') k.data = [d0, d1] := by
    unfold splitOnPred
    rw [hdata, splitOnPredAux_with_sep _ _ _ _ []
        (fun x hx => digit_beq_false (hd0 x hx) (by decide)) (by decide),
      splitOnPredAux_no_sep _ _ []
        (fun x hx => digit_beq_false (hd1 x hx) (by decide))]
    simp
  constructor
  · unfold parseLineRange
    rw [if_pos hcont, hsplitp]
    show (match pyInt? d0, pyInt? d1 with
      | some s, some e => some (s, e)
      | _, _ => none) = some (natOfDigits d0, natOfDigits d1)
    rw [pyInt?_digits hne0 hd0, pyInt?_digits hne1 hd1]
  · unfold sortKeyOf splitOnPred
    rw [hdata, splitOnPredAux_with_sep _ _ _ _ []
        (fun x hx => by
          rw [digit_beq_false (hd0 x hx) (by decide),
            digit_beq_false (hd0 x hx) (by decide)]
          rfl)
        (by decide),
      splitOnPredAux_no_sep _ _ []
        (fun x hx => by
          rw [digit_beq_false (hd1 x hx) (by decide),
            digit_beq_false (hd1 x hx) (by decide)]
          rfl)]
    simp only [List.reverse_nil, List.nil_append, List.map_cons, List.map_nil]
    rw [if_pos (digits_piece_cond hne0 hd0), if_pos (digits_piece_cond hne1 hd1)]

/-- For a canonical key, the key parses and the first component of its sort
key is the parsed start line. -/
theorem canonicalKey_parse_sortKey {k : String} (h : canonicalKey k = true) :
    ∃ s e tail, parseLineRange k = some (s, e) ∧ sortKeyOf k = s :: tail := by
  have hsplit : k.data.takeWhile Char.isDigit ++ k.data.dropWhile Char.isDigit
      = k.data := List.takeWhile_append_dropWhile Char.isDigit k.data
  have hd0 : ∀ c ∈ k.data.takeWhile Char.isDigit, c.isDigit = true :=
    fun c hc => List.mem_takeWhile_imp hc
  cases hrest : k.data.dropWhile Char.isDigit with
  | nil =>
    rw [hrest, List.append_nil] at hsplit
    simp only [canonicalKey, hrest] at h
    have hne : k.data.takeWhile Char.isDigit ≠ [] := by
      intro hx
      rw [hx] at h
      exact absurd h (by decide)
    rcases canonical_split_one hsplit.symm hne hd0 with ⟨hp, hk⟩
    exact ⟨_, _, [], hp, hk⟩
  | cons c d1 =>
    rw [hrest] at hsplit
    simp only [canonicalKey, hrest, Bool.and_eq_true, beq_iff_eq,
      List.all_eq_true] at h
    rcases h with ⟨⟨⟨h0, hcd⟩, h1⟩, hall⟩
    subst hcd
    have hne0 : k.data.takeWhile Char.isDigit ≠ [] := by
      intro hx
      rw [hx] at h0
      exact absurd h0 (by decide)
    have hne1 : d1 ≠ [] := by
      intro hx
      rw [hx] at h1
      exact absurd h1 (by decide)
    have hd1 : ∀ a ∈ d1, a.isDigit = true := fun a ha => hall a ha
    rcases canonical_split_two hsplit.symm hne0 hne1 hd0 hd1 with ⟨hp, hk⟩
    exact ⟨_, _, _, hp, hk⟩

/-! ### Ranges, disjointness and covered positions -/

/-- The head of a lexicographically smaller list is no larger. -/
theorem lexLe_head_le {x y : Nat} {xs ys : List Nat}
    (h : lexLe (x :: xs) (y :: ys) = true) : x ≤ y := by
  unfold lexLe at h
  rcases Nat.lt_trichotomy x y with hxy | hxy | hxy
  · exact Nat.le_of_lt hxy
  · exact Nat.le_of_eq hxy
  · rw [if_neg (Nat.lt_asymm hxy), if_pos hxy] at h
    exact absurd h (by simp)

/-- Unpacking `rangeOkB`. -/
theorem rangeOkB_spec {n : Nat} {kv : String × String} (h : rangeOkB n kv = true) :
    ∃ s e, parseLineRange kv.1 = some (s, e) ∧ 1 ≤ s ∧ s ≤ e ∧ e ≤ n := by
  unfold rangeOkB at h
  cases hp : parseLineRange kv.1 with
  | none =>
    rw [hp] at h
    simp at h
  | some se =>
    rcases se with ⟨s, e⟩
    rw [hp] at h
    simp only [Bool.and_eq_true, decide_eq_true_eq] at h
    exact ⟨s, e, rfl, h.1.1, h.1.2, h.2⟩

/-- Unpacking `rangesDisjoint` when both keys parse. -/
theorem rangesDisjoint_spec {a b : String × String} {sa ea sb eb : Nat}
    (hpa : parseLineRange a.1 = some (sa, ea))
    (hpb : parseLineRange b.1 = some (sb, eb))
    (h : rangesDisjoint a b = true) : ea < sb ∨ eb < sa := by
  unfold rangesDisjoint at h
  rw [hpa, hpb] at h
  simp only [Bool.or_eq_true, decide_eq_true_eq] at h
  exact h

/-- `rangesDisjoint` is symmetric. -/
theorem rangesDisjoint_symm {a b : String × String}
    (h : rangesDisjoint a b = true) : rangesDisjoint b a = true := by
  unfold rangesDisjoint at h ⊢
  cases hpa : parseLineRange a.1 with
  | none =>
    cases hpb : parseLineRange b.1 with
    | none => rfl
    | some q =>
      rcases q with ⟨s2, e2⟩
      rfl
  | some p =>
    rcases p with ⟨s1, e1⟩
    cases hpb : parseLineRange b.1 with
    | none => rfl
    | some q =>
      rcases q with ⟨s2, e2⟩
      rw [hpa, hpb] at h
      simp only [Bool.or_eq_true, decide_eq_true_eq] at h ⊢
      tauto

/-- `List.any` is invariant under permutation. -/
theorem any_eq_of_perm {f : String × String → Bool}
    {E1 E2 : List (String × String)} (h : List.Perm E1 E2) :
    E1.any f = E2.any f := by
  induction h with
  | nil => rfl
  | cons x _ ih => simp [List.any_cons, ih]
  | swap x y l =>
    simp only [List.any_cons]
    rw [← Bool.or_assoc, ← Bool.or_assoc, Bool.or_comm (f y) (f x)]
  | trans _ _ ih1 ih2 => rw [ih1, ih2]

/-- Covered positions are invariant under permutation of the mapping. -/
theorem coveredBy_perm {E1 E2 : List (String × String)} (h : List.Perm E1 E2)
    (i : Nat) : coveredBy E1 i = coveredBy E2 i :=
  any_eq_of_perm h

/-- Unfolding equation: no lines. -/
theorem uncoveredFrom_nil (E : List (String × String)) (i : Nat) :
    uncoveredFrom E i [] = [] := rfl

/-- Unfolding equation: one more line. -/
theorem uncoveredFrom_cons (E : List (String × String)) (i : Nat) (x : String)
    (xs : List String) :
    uncoveredFrom E i (x :: xs) =
      if coveredBy E i = true then uncoveredFrom E (i + 1) xs
      else x :: uncoveredFrom E (i + 1) xs := rfl

/-- `uncoveredFrom` distributes over append, shifting the position. -/
theorem uncoveredFrom_append (E : List (String × String)) (xs ys : List String) :
    ∀ i, uncoveredFrom E i (xs ++ ys) =
      uncoveredFrom E i xs ++ uncoveredFrom E (i + xs.length) ys := by
  induction xs with
  | nil =>
    intro i
    simp [uncoveredFrom_nil]
  | cons x xs ih =>
    intro i
    rw [List.cons_append, uncoveredFrom_cons, uncoveredFrom_cons, ih (i + 1)]
    have harith : i + 1 + xs.length = i + (x :: xs).length := by
      simp only [List.length_cons]
      omega
    rw [harith]
    split
    · rfl
    · rw [List.cons_append]

/-- A block of lines none of which is covered survives unchanged. -/
theorem uncoveredFrom_of_none_covered (E : List (String × String))
    (xs : List String) :
    ∀ i, (∀ k, k < xs.length → coveredBy E (i + k) = false) →
    uncoveredFrom E i xs = xs := by
  induction xs with
  | nil => intro i _; rfl
  | cons x xs ih =>
    intro i h
    have h0 : coveredBy E i = false := by
      have := h 0 (by simp)
      rwa [Nat.add_zero] at this
    rw [uncoveredFrom_cons, if_neg (by simp [h0]), ih (i + 1) (fun k hk => by
      have := h (k + 1) (by simp only [List.length_cons]; omega)
      rwa [show i + (k + 1) = i + 1 + k by omega] at this)]

/-- A block of lines all of which are covered contributes nothing. -/
theorem uncoveredFrom_of_all_covered (E : List (String × String))
    (xs : List String) :
    ∀ i, (∀ k, k < xs.length → coveredBy E (i + k) = true) →
    uncoveredFrom E i xs = [] := by
  induction xs with
  | nil => intro i _; rfl
  | cons x xs ih =>
    intro i h
    have h0 : coveredBy E i = true := by
      have := h 0 (by simp)
      rwa [Nat.add_zero] at this
    rw [uncoveredFrom_cons, if_pos h0, ih (i + 1) (fun k hk => by
      have := h (k + 1) (by simp only [List.length_cons]; omega)
      rwa [show i + (k + 1) = i + 1 + k by omega] at this)]

/-- Mappings covering the same positions of a block select the same lines. -/
theorem uncoveredFrom_congr {E1 E2 : List (String × String)} (xs : List String) :
    ∀ i, (∀ k, k < xs.length → coveredBy E1 (i + k) = coveredBy E2 (i + k)) →
    uncoveredFrom E1 i xs = uncoveredFrom E2 i xs := by
  induction xs with
  | nil => intro i _; rfl
  | cons x xs ih =>
    intro i h
    have h0 : coveredBy E1 i = coveredBy E2 i := by
      have := h 0 (by simp)
      rwa [Nat.add_zero] at this
    rw [uncoveredFrom_cons, uncoveredFrom_cons, h0, ih (i + 1) (fun k hk => by
      have := h (k + 1) (by simp only [List.length_cons]; omega)
      rwa [show i + (k + 1) = i + 1 + k by omega] at this)]

/-- Covering by a cons splits into the head entry and the rest. -/
theorem coveredBy_cons (a : String × String) (E : List (String × String))
    (i : Nat) : coveredBy (a :: E) i = (entryCovers a i || coveredBy E i) := by
  simp [coveredBy, List.any_cons]

/-- `entryCovers` through a successful parse. -/
theorem entryCovers_of_parse {kv : String × String} {s e : Nat}
    (hp : parseLineRange kv.1 = some (s, e)) (i : Nat) :
    entryCovers kv i = (decide (s ≤ i) && decide (i ≤ e)) := by
  unfold entryCovers
  rw [hp]

/-- An entry whose key does not parse leaves the working list unchanged. -/
theorem applyRangeEdit_of_parse_none (n : Nat) (result : List String)
    (kv : String × String) (h : parseLineRange kv.1 = none) :
    applyRangeEdit n result kv = result := by
  unfold applyRangeEdit
  rw [h]

/-- Folding the edit loop ignores entries whose keys do not parse. -/
theorem foldl_applyRangeEdit_filter (n : Nat) (l : List (String × String))
    (init : List String) :
    l.foldl (applyRangeEdit n) init =
      (l.filter (fun kv => (parseLineRange kv.1).isSome)).foldl (applyRangeEdit n) init := by
  induction l generalizing init with
  | nil => rfl
  | cons a m ih =>
    by_cases hp : (parseLineRange a.1).isSome = true
    · rw [List.filter_cons, if_pos hp, List.foldl_cons, List.foldl_cons, ih]
    · have hnone : parseLineRange a.1 = none := by
        cases h : parseLineRange a.1 with
        | none => rfl
        | some v => rw [h] at hp; exact absurd rfl hp
      rw [List.filter_cons, if_neg hp, List.foldl_cons,
        applyRangeEdit_of_parse_none n init a hnone, ih]

/-- Claim C8 (confirmed): an entry whose key cannot be parsed as a line range
is skipped wherever it occurs in the mapping: removing it does not change the
result, so every other valid entry of the same call still applies, and the
malformed key never aborts the call (parse failure is a skip, not an
exception). -/
theorem malformed_key_skipped (content : String)
    (pre post : List (String × String)) (k v : String)
    (hk : parseLineRange k = none) :
    apply_line_based_edit content (pre ++ (k, v) :: post) =
      apply_line_based_edit content (pre ++ post) := by
  have hfe : (pre ++ (k, v) :: post).filter (fun kv => (parseLineRange kv.1).isSome)
      = (pre ++ post).filter (fun kv => (parseLineRange kv.1).isSome) := by
    rw [List.filter_append, List.filter_append, List.filter_cons, if_neg (by simp [hk])]
  unfold apply_line_based_edit applyLineEditsCore
  rw [foldl_applyRangeEdit_filter, ← sortEditsDesc_filter, hfe, sortEditsDesc_filter,
    ← foldl_applyRangeEdit_filter]

/-- Witness for `malformed_key_skipped`: the `"abc"` entry is dropped while
the surrounding valid edits still apply. -/
theorem malformed_key_skipped_witness :
    parseLineRange "abc" = none ∧
    apply_line_based_edit "a\nb" [("1-1", "X"), ("abc", "Z"), ("2-2", "Y")] =
      apply_line_based_edit "a\nb" [("1-1", "X"), ("2-2", "Y")] :=
  ⟨by decide, malformed_key_skipped "a\nb" [("1-1", "X")] [("2-2", "Y")] "abc" "Z"
    (by decide)⟩

/-! ### The frame property of the edit fold -/

/-- With a parsed in-bounds range, the edit step is a pure splice: neither
clamp fires and the inverted-range check passes. -/
theorem applyRangeEdit_inbounds (n : Nat) (Z : List String) (kv : String × String)
    {s e : Nat} (hp : parseLineRange kv.1 = some (s, e)) (h1 : 1 ≤ s)
    (hse : s ≤ e) (hen : e ≤ n) :
    applyRangeEdit n Z kv = Z.take (s - 1) ++ pySplitlines kv.2 ++ Z.drop e := by
  unfold applyRangeEdit
  rw [hp]
  show (if (if ((s : Int) - 1) < 0 then 0 else (s : Int) - 1) >
          (if ((e : Int) - 1) ≥ (n : Int) then (n : Int) - 1 else (e : Int) - 1) then Z
        else Z.take (if ((s : Int) - 1) < 0 then 0 else (s : Int) - 1).toNat ++
          pySplitlines kv.2 ++
          Z.drop ((if ((e : Int) - 1) ≥ (n : Int) then (n : Int) - 1
            else (e : Int) - 1).toNat + 1))
      = Z.take (s - 1) ++ pySplitlines kv.2 ++ Z.drop e
  rw [if_neg (show ¬((s : Int) - 1 < 0) by omega),
    if_neg (show ¬((e : Int) - 1 ≥ (n : Int)) by omega),
    if_neg (show ¬((s : Int) - 1 > (e : Int) - 1) by omega),
    show ((s : Int) - 1).toNat = s - 1 by omega,
    show ((e : Int) - 1).toNat + 1 = e by omega]

/-- A suffix lying entirely below all edited ranges rides along unchanged
through the fold. -/
theorem foldl_applyRangeEdit_append (n : Nat) :
    ∀ (L : List (String × String)) (P Y : List String),
    (∀ kv ∈ L, ∃ s e, parseLineRange kv.1 = some (s, e) ∧ 1 ≤ s ∧ s ≤ e ∧
      e ≤ n ∧ e ≤ P.length) →
    L.Pairwise (fun u v => ∀ su eu sv ev, parseLineRange u.1 = some (su, eu) →
      parseLineRange v.1 = some (sv, ev) → ev < su) →
    L.foldl (applyRangeEdit n) (P ++ Y) = L.foldl (applyRangeEdit n) P ++ Y := by
  intro L
  induction L with
  | nil => intro P Y _ _; rfl
  | cons a rest ih =>
    intro P Y hok hdesc
    rcases hok a (List.mem_cons_self a rest) with ⟨s, e, hp, h1, hse, hen, heP⟩
    rcases List.pairwise_cons.mp hdesc with ⟨ha, hrest⟩
    have hsP : s - 1 ≤ P.length := by omega
    have hstep : applyRangeEdit n (P ++ Y) a = applyRangeEdit n P a ++ Y := by
      rw [applyRangeEdit_inbounds n (P ++ Y) a hp h1 hse hen,
        applyRangeEdit_inbounds n P a hp h1 hse hen,
        List.take_append_of_le_length hsP,
        List.drop_append_of_le_length heP]
      simp [List.append_assoc]
    have hlen : s - 1 ≤ (applyRangeEdit n P a).length := by
      rw [applyRangeEdit_inbounds n P a hp h1 hse hen]
      simp only [List.length_append, List.length_take]
      omega
    have hok' : ∀ kv ∈ rest, ∃ s' e', parseLineRange kv.1 = some (s', e') ∧
        1 ≤ s' ∧ s' ≤ e' ∧ e' ≤ n ∧ e' ≤ (applyRangeEdit n P a).length := by
      intro kv hkv
      rcases hok kv (List.mem_cons_of_mem a hkv) with ⟨s', e', hp', a1, a2, a3, _⟩
      have hlt : e' < s := ha kv hkv s e s' e' hp hp'
      exact ⟨s', e', hp', a1, a2, a3, by omega⟩
    rw [List.foldl_cons, List.foldl_cons, hstep]
    exact ih (applyRangeEdit n P a) Y hok' hrest

/-- Peeling the topmost range off the uncovered-lines computation: the block
inside the range vanishes, the block below it survives whole, and the prefix
is governed by the remaining (strictly lower) ranges alone. -/
theorem uncovered_decomp (a : String × String) (rest : List (String × String))
    (orig : List String) {s e : Nat}
    (hp : parseLineRange a.1 = some (s, e)) (h1 : 1 ≤ s) (hse : s ≤ e)
    (hle : e ≤ orig.length)
    (hbelow : ∀ x ∈ rest, ∀ sx ex, parseLineRange x.1 = some (sx, ex) → ex < s) :
    uncoveredFrom (a :: rest) 1 orig =
      uncoveredFrom rest 1 (orig.take (s - 1)) ++ orig.drop e := by
  have hq : orig = orig.take (s - 1) ++
      ((orig.drop (s - 1)).take (e - (s - 1)) ++ orig.drop e) := by
    rw [← List.append_assoc, ← List.take_add,
      show s - 1 + (e - (s - 1)) = e by omega, List.take_append_drop]
  have hlen1 : (orig.take (s - 1)).length = s - 1 := by
    rw [List.length_take]
    omega
  have hlen2 : ((orig.drop (s - 1)).take (e - (s - 1))).length = e - (s - 1) := by
    rw [List.length_take, List.length_drop]
    omega
  have hmid : uncoveredFrom (a :: rest) s
      ((orig.drop (s - 1)).take (e - (s - 1))) = [] := by
    apply uncoveredFrom_of_all_covered
    intro k hk
    rw [hlen2] at hk
    rw [coveredBy_cons, entryCovers_of_parse hp]
    have hd1 : decide (s ≤ s + k) = true := by simp
    have hd2 : decide (s + k ≤ e) = true := by
      simp only [decide_eq_true_eq]
      omega
    rw [hd1, hd2]
    rfl
  have hdropu : uncoveredFrom (a :: rest) (e + 1) (orig.drop e) = orig.drop e := by
    apply uncoveredFrom_of_none_covered
    intro k hk
    rw [coveredBy_cons, entryCovers_of_parse hp]
    have hd2 : decide (e + 1 + k ≤ e) = false := by
      simp only [decide_eq_false_iff_not]
      omega
    rw [hd2, Bool.and_false, Bool.false_or]
    show rest.any (fun kv => entryCovers kv (e + 1 + k)) = false
    apply List.any_eq_false.mpr
    intro x hx
    cases hpx : parseLineRange x.1 with
    | none => simp [entryCovers, hpx]
    | some q =>
      rcases q with ⟨sx, ex⟩
      have hxlt : ex < s := hbelow x hx sx ex hpx
      rw [entryCovers_of_parse hpx]
      simp only [Bool.and_eq_true, decide_eq_true_eq, not_and]
      intro _
      omega
  have htakeu : uncoveredFrom (a :: rest) 1 (orig.take (s - 1))
      = uncoveredFrom rest 1 (orig.take (s - 1)) := by
    apply uncoveredFrom_congr
    intro k hk
    rw [hlen1] at hk
    rw [coveredBy_cons, entryCovers_of_parse hp]
    have hd1 : decide (s ≤ 1 + k) = false := by
      simp only [decide_eq_false_iff_not]
      omega
    rw [hd1, Bool.false_and, Bool.false_or]
  conv_lhs => rw [hq]
  rw [uncoveredFrom_append, uncoveredFrom_append, hlen1, hlen2,
    show 1 + (s - 1) = s by omega, show s + (e - (s - 1)) = e + 1 by omega,
    hmid, hdropu, htakeu, List.nil_append]

/-- Frame property of the edit fold: with in-bounds ranges processed in
strictly descending disjoint order, the lines outside all ranges survive in
the output, unchanged and in their original relative order. -/
theorem uncovered_sublist_foldl (n : Nat) :
    ∀ (L : List (String × String)) (orig : List String),
    (∀ kv ∈ L, ∃ s e, parseLineRange kv.1 = some (s, e) ∧ 1 ≤ s ∧ s ≤ e ∧
      e ≤ n ∧ e ≤ orig.length) →
    L.Pairwise (fun u v => ∀ su eu sv ev, parseLineRange u.1 = some (su, eu) →
      parseLineRange v.1 = some (sv, ev) → ev < su) →
    List.Sublist (uncoveredFrom L 1 orig) (L.foldl (applyRangeEdit n) orig) := by
  intro L
  induction L with
  | nil =>
    intro orig _ _
    rw [uncoveredFrom_of_none_covered [] orig 1 (fun k _ => rfl)]
    exact List.Sublist.refl orig
  | cons a rest ih =>
    intro orig hok hdesc
    rcases hok a (List.mem_cons_self a rest) with ⟨s, e, hp, h1, hse, hen, hle⟩
    rcases List.pairwise_cons.mp hdesc with ⟨ha, hrest⟩
    have hbelow : ∀ x ∈ rest, ∀ sx ex, parseLineRange x.1 = some (sx, ex) → ex < s :=
      fun x hx sx ex hpx => ha x hx s e sx ex hp hpx
    have htlen : (orig.take (s - 1)).length = s - 1 := by
      rw [List.length_take]
      omega
    have hok' : ∀ kv ∈ rest, ∃ s' e', parseLineRange kv.1 = some (s', e') ∧
        1 ≤ s' ∧ s' ≤ e' ∧ e' ≤ n ∧ e' ≤ (orig.take (s - 1)).length := by
      intro kv hkv
      rcases hok kv (List.mem_cons_of_mem a hkv) with ⟨s', e', hp', a1, a2, a3, _⟩
      have hlt : e' < s := hbelow kv hkv s' e' hp'
      exact ⟨s', e', hp', a1, a2, a3, by omega⟩
    rw [uncovered_decomp a rest orig hp h1 hse hle hbelow, List.foldl_cons,
      applyRangeEdit_inbounds n orig a hp h1 hse hen, List.append_assoc,
      foldl_applyRangeEdit_append n rest (orig.take (s - 1))
        (pySplitlines a.2 ++ orig.drop e) hok' hrest]
    exact List.Sublist.append (ih (orig.take (s - 1)) hok' hrest)
      (List.sublist_append_right (pySplitlines a.2) (orig.drop e))

/-- Claim C5 (counterexample): with the in-bounds, pairwise disjoint parsed
ranges of keys `" 5- 7"` (Python `int` accepts the spaces) and `"1-2"`, the
uncovered original line `"l4"` is destroyed: the sort key of `" 5- 7"` is
`[0, 0]` (its pieces fail `isdigit`), so that edit is applied after `"1-2"`
instead of before it, and its stale indices erase a line outside both
ranges.  This falsifies the claim that lines outside all supplied ranges
always survive. -/
theorem frame_counterexample :
    (∀ kv ∈ ([(" 5- 7", "X"), ("1-2", "A\nB\nC")] : List (String × String)),
      rangeOkB (pySplitlines "l1\nl2\nl3\nl4\nl5\nl6\nl7").length kv = true) ∧
    ([(" 5- 7", "X"), ("1-2", "A\nB\nC")] : List (String × String)).Pairwise
      (fun u v => rangesDisjoint u v = true) ∧
    "l4" ∈ uncoveredLines (pySplitlines "l1\nl2\nl3\nl4\nl5\nl6\nl7")
      [(" 5- 7", "X"), ("1-2", "A\nB\nC")] ∧
    "l4" ∉ applyLineEditsCore (pySplitlines "l1\nl2\nl3\nl4\nl5\nl6\nl7")
      [(" 5- 7", "X"), ("1-2", "A\nB\nC")] := by
  decide

/-- Claim C5 (amended): for every document and every edit mapping whose keys
are in canonical digit form (`"s"` or `"s-e"`) and whose parsed 1-indexed
ranges are within the document's bounds and pairwise disjoint, every original
line outside all supplied ranges is present in the output, unchanged and in
original relative order (the uncovered lines form a sublist of the result).
The canonical-key condition is what makes the sort key agree with the parsed
range, so edits are truly applied bottom-up. -/
theorem frame_property (content : String) (edits : List (String × String))
    (hcanon : ∀ kv ∈ edits, canonicalKey kv.1 = true)
    (hok : ∀ kv ∈ edits, rangeOkB (pySplitlines content).length kv = true)
    (hdisj : edits.Pairwise (fun u v => rangesDisjoint u v = true)) :
    List.Sublist (uncoveredLines (pySplitlines content) edits)
      (applyLineEditsCore (pySplitlines content) edits) := by
  have hperm := sortEditsDesc_perm edits
  have hokS : ∀ kv ∈ sortEditsDesc edits,
      rangeOkB (pySplitlines content).length kv = true :=
    fun kv hkv => hok kv (hperm.mem_iff.mp hkv)
  have hcanonS : ∀ kv ∈ sortEditsDesc edits, canonicalKey kv.1 = true :=
    fun kv hkv => hcanon kv (hperm.mem_iff.mp hkv)
  have hdisjS : (sortEditsDesc edits).Pairwise
      (fun u v => rangesDisjoint u v = true) :=
    (hperm.pairwise_iff (fun h => rangesDisjoint_symm h)).mpr hdisj
  have hdescS : (sortEditsDesc edits).Pairwise
      (fun u v => ∀ su eu sv ev, parseLineRange u.1 = some (su, eu) →
        parseLineRange v.1 = some (sv, ev) → ev < su) := by
    refine ((sortEditsDesc_pairwise edits).and hdisjS).imp_of_mem ?_
    intro u v hu hv huv
    rcases huv with ⟨hge, hdj⟩
    intro su eu sv ev hpu hpv
    rcases canonicalKey_parse_sortKey (hcanonS u hu) with ⟨su', eu', tu, hpu', hku⟩
    rcases canonicalKey_parse_sortKey (hcanonS v hv) with ⟨sv', ev', tv, hpv', hkv'⟩
    injection hpu.symm.trans hpu' with hequ
    injection hequ with hequ1 hequ2
    injection hpv.symm.trans hpv' with heqv
    injection heqv with heqv1 heqv2
    subst hequ1
    subst heqv1
    have hheads : sv ≤ su := by
      unfold keyGe at hge
      rw [hku, hkv'] at hge
      exact lexLe_head_le hge
    rcases rangeOkB_spec (hokS u hu) with ⟨su2, eu2, hpu2, hu1, hu2, _⟩
    rcases rangeOkB_spec (hokS v hv) with ⟨sv2, ev2, hpv2, hv1, hv2, _⟩
    injection hpu.symm.trans hpu2 with hequ'
    injection hequ' with hequ1' hequ2'
    injection hpv.symm.trans hpv2 with heqv'
    injection heqv' with heqv1' heqv2'
    subst hequ1'
    subst hequ2'
    subst heqv1'
    subst heqv2'
    rcases rangesDisjoint_spec hpu hpv hdj with hcase | hcase
    · omega
    · exact hcase
  have hokS' : ∀ kv ∈ sortEditsDesc edits, ∃ s e,
      parseLineRange kv.1 = some (s, e) ∧ 1 ≤ s ∧ s ≤ e ∧
      e ≤ (pySplitlines content).length ∧ e ≤ (pySplitlines content).length := by
    intro kv hkv
    rcases rangeOkB_spec (hokS kv hkv) with ⟨s, e, hp, a1, a2, a3⟩
    exact ⟨s, e, hp, a1, a2, a3, a3⟩
  have hunc : uncoveredLines (pySplitlines content) edits
      = uncoveredFrom (sortEditsDesc edits) 1 (pySplitlines content) := by
    unfold uncoveredLines
    exact uncoveredFrom_congr (pySplitlines content) 1
      (fun k _ => coveredBy_perm hperm.symm (1 + k))
  rw [hunc]
  unfold applyLineEditsCore
  exact uncovered_sublist_foldl (pySplitlines content).length (sortEditsDesc edits)
    (pySplitlines content) hokS' hdescS

/-- Witness for `frame_property` on a 7-line document with canonical keys
`"5-7"` and `"1-2"`: the uncovered lines `l3, l4` survive in order. -/
theorem frame_property_witness :
    (∀ kv ∈ ([("5-7", "X"), ("1-2", "A\nB\nC")] : List (String × String)),
      canonicalKey kv.1 = true) ∧
    (∀ kv ∈ ([("5-7", "X"), ("1-2", "A\nB\nC")] : List (String × String)),
      rangeOkB (pySplitlines "l1\nl2\nl3\nl4\nl5\nl6\nl7").length kv = true) ∧
    ([("5-7", "X"), ("1-2", "A\nB\nC")] : List (String × String)).Pairwise
      (fun u v => rangesDisjoint u v = true) ∧
    List.Sublist
      (uncoveredLines (pySplitlines "l1\nl2\nl3\nl4\nl5\nl6\nl7")
        [("5-7", "X"), ("1-2", "A\nB\nC")])
      (applyLineEditsCore (pySplitlines "l1\nl2\nl3\nl4\nl5\nl6\nl7")
        [("5-7", "X"), ("1-2", "A\nB\nC")]) :=
  ⟨by decide, by decide, by decide,
    frame_property "l1\nl2\nl3\nl4\nl5\nl6\nl7" [("5-7", "X"), ("1-2", "A\nB\nC")]
      (by decide) (by decide) (by decide)⟩

/-- Claim C2 (confirmed): for every policy with a non-empty denylist and every
`run_terminal_command` request whose command contains a denylisted substring,
`evaluate_permission` returns `denied`, regardless of `yolo_mode`, the
allowlist, or `delete_file_protection`. -/
theorem denylist_always_denies (opts : PermissionOptions) (req : PermissionRequest)
    (d : String) (hop : req.operation = "run_terminal_command")
    (hmem : d ∈ opts.command_denylist) (hmatch : pyIn d req.command = true) :
    evaluate_permission opts req = PermissionStatus.denied := by
  have hne : opts.command_denylist ≠ [] := by
    intro h
    rw [h] at hmem
    exact absurd hmem (List.not_mem_nil d)
  have hany : opts.command_denylist.any (fun denied => pyIn denied req.command) = true :=
    List.any_eq_true.mpr ⟨d, hmem, hmatch⟩
  simp [evaluate_permission, hop, hne, hany]

/-- Witness for `denylist_always_denies` at a concrete policy and request. -/
theorem denylist_always_denies_witness :
    evaluate_permission ⟨true, ["rm"], ["rm -rf"], false⟩
      ⟨"run_terminal_command", [("command", "rm -rf /tmp")]⟩ = PermissionStatus.denied :=
  denylist_always_denies ⟨true, ["rm"], ["rm -rf"], false⟩
    ⟨"run_terminal_command", [("command", "rm -rf /tmp")]⟩ "rm -rf" rfl (by decide) (by decide)

/-- Claim C3 (confirmed): with `delete_file_protection` enabled, every
`delete_file` request needs confirmation, even in yolo mode. -/
theorem delete_protection_forces_confirmation (opts : PermissionOptions)
    (req : PermissionRequest) (hprot : opts.delete_file_protection = true)
    (hop : req.operation = "delete_file") :
    evaluate_permission opts req = PermissionStatus.needs_confirmation := by
  simp [evaluate_permission, hop, hprot]

/-- Witness for `delete_protection_forces_confirmation` with yolo mode on. -/
theorem delete_protection_witness :
    evaluate_permission ⟨true, [], [], true⟩ ⟨"delete_file", [("path", "x")]⟩ =
      PermissionStatus.needs_confirmation :=
  delete_protection_forces_confirmation ⟨true, [], [], true⟩
    ⟨"delete_file", [("path", "x")]⟩ rfl rfl

/-- Claim C4 (confirmed): with `yolo_mode = false`, `evaluate_permission`
never grants; it denies exactly the terminal commands matching the denylist,
and needs confirmation in every other case. -/
theorem no_yolo_never_grants (opts : PermissionOptions) (req : PermissionRequest)
    (h : opts.yolo_mode = false) :
    evaluate_permission opts req ≠ PermissionStatus.granted ∧
    (evaluate_permission opts req = PermissionStatus.denied ↔
      (req.operation = "run_terminal_command" ∧
       opts.command_denylist.any (fun d => pyIn d req.command) = true)) ∧
    (¬ (req.operation = "run_terminal_command" ∧
        opts.command_denylist.any (fun d => pyIn d req.command) = true) →
      evaluate_permission opts req = PermissionStatus.needs_confirmation) := by
  by_cases hc : req.operation = "run_terminal_command" ∧
      opts.command_denylist.any (fun d => pyIn d req.command) = true
  · have hne : opts.command_denylist ≠ [] := by
      intro hnil
      rw [hnil] at hc
      simp at hc
    have : evaluate_permission opts req = PermissionStatus.denied := by
      simp [evaluate_permission, hc.1, hc.2, hne]
    simp [this, hc]
  · have : evaluate_permission opts req = PermissionStatus.needs_confirmation := by
      unfold evaluate_permission
      rw [if_neg (by
        intro hx
        exact hc ⟨hx.1, hx.2.2⟩)]
      rw [h]
      split <;> simp
    refine ⟨by simp [this], ?_, fun _ => this⟩
    rw [this]
    constructor
    · intro hcontra
      exact absurd hcontra (by decide)
    · intro hcc
      exact absurd hcc hc

/-- Witness for `no_yolo_never_grants` at a concrete policy and request. -/
theorem no_yolo_never_grants_witness :
    evaluate_permission ⟨false, ["ls"], ["rm"], true⟩
      ⟨"run_terminal_command", [("command", "ls -la")]⟩ ≠ PermissionStatus.granted ∧
    evaluate_permission ⟨false, ["ls"], ["rm"], true⟩
      ⟨"run_terminal_command", [("command", "ls -la")]⟩ = PermissionStatus.needs_confirmation := by
  have h := no_yolo_never_grants ⟨false, ["ls"], ["rm"], true⟩
    ⟨"run_terminal_command", [("command", "ls -la")]⟩ rfl
  exact ⟨h.1, h.2.2 (by decide)⟩

/-- Claim C10 (confirmed): for operations other than `run_terminal_command`,
`evaluate_permission` never denies: the result is granted or needs
confirmation. -/
theorem non_terminal_never_denied (opts : PermissionOptions) (req : PermissionRequest)
    (h : req.operation ≠ "run_terminal_command") :
    evaluate_permission opts req = PermissionStatus.granted ∨
    evaluate_permission opts req = PermissionStatus.needs_confirmation := by
  unfold evaluate_permission
  rw [if_neg (by intro hx; exact h hx.1)]
  split_ifs <;> simp_all

/-- Claim C1 (counterexample): the claim that a command containing
`"rm -rf /"` always needs confirmation even when it matches the allowlist, or
when the allowlist is empty, is false: in yolo mode with a matching allowlist
entry (`"rm"`), and likewise with an empty allowlist, the command
`"rm -rf /"` is granted. -/
theorem rm_net_counterexample :
    evaluate_permission ⟨true, ["rm"], [], true⟩
      ⟨"run_terminal_command", [("command", "rm -rf /")]⟩ = PermissionStatus.granted ∧
    evaluate_permission ⟨true, [], [], true⟩
      ⟨"run_terminal_command", [("command", "rm -rf /")]⟩ = PermissionStatus.granted ∧
    PermissionStatus.granted ≠ PermissionStatus.needs_confirmation := by
  decide

/-- Claim C1 (amended): in yolo mode with no denylist match, a terminal
command containing `"rm -rf /"` needs confirmation exactly when the allowlist
is non-empty and no allowlist entry matches the command; when the allowlist is
empty or an entry matches, the command is granted — the destructive-command
branch is only reached after allowlist approval has already failed. -/
theorem rm_net_inside_allowlist_miss (opts : PermissionOptions) (req : PermissionRequest)
    (hyolo : opts.yolo_mode = true)
    (hop : req.operation = "run_terminal_command")
    (hdeny : opts.command_denylist.any (fun d => pyIn d req.command) = false)
    (hrm : pyIn "rm -rf /" req.command = true) :
    evaluate_permission opts req =
      (if opts.command_allowlist ≠ [] ∧
          ¬ opts.command_allowlist.any (fun allowed => pyIn allowed req.command) then
        PermissionStatus.needs_confirmation
      else
        PermissionStatus.granted) := by
  unfold evaluate_permission
  rw [if_neg (by intro hx; rw [hx.2.2] at hdeny; exact Bool.true_eq_false.mp hdeny)]
  rw [if_neg (by intro hx; rw [hop] at hx; exact absurd hx.1 (by decide))]
  rw [hyolo, if_pos rfl, if_pos hop]
  split_ifs <;> rfl

/-- Witness for `rm_net_inside_allowlist_miss`: non-matching allowlist
`["ls"]`, so the destructive command needs confirmation. -/
theorem rm_net_witness :
    evaluate_permission ⟨true, ["ls"], [], true⟩
      ⟨"run_terminal_command", [("command", "rm -rf /")]⟩ =
      (if (["ls"] : List String) ≠ [] ∧
          ¬ (["ls"] : List String).any (fun allowed =>
              pyIn allowed (PermissionRequest.command
                ⟨"run_terminal_command", [("command", "rm -rf /")]⟩)) then
        PermissionStatus.needs_confirmation
      else
        PermissionStatus.granted) :=
  rm_net_inside_allowlist_miss ⟨true, ["ls"], [], true⟩
    ⟨"run_terminal_command", [("command", "rm -rf /")]⟩ rfl rfl (by decide) (by decide)

/-- Claim C9 (counterexample): the claim that an empty command never matches
any substring list fails when a list contains the empty string: with denylist
`[""]` the empty command is denied, and with allowlist `[""]` in yolo mode it
is granted instead of needing confirmation. -/
theorem empty_command_counterexample :
    evaluate_permission ⟨false, [], [""], true⟩
      ⟨"run_terminal_command", [("command", "")]⟩ = PermissionStatus.denied ∧
    evaluate_permission ⟨true, [""], [], true⟩
      ⟨"run_terminal_command", [("command", "")]⟩ = PermissionStatus.granted := by
  decide

/-- Claim C9 (amended): for policies whose denylist and allowlist entries are
all non-empty, an empty command matches neither list: the request is never
denied, and in yolo mode with a non-empty allowlist it needs confirmation. -/
theorem empty_command_no_match (opts : PermissionOptions) (req : PermissionRequest)
    (hop : req.operation = "run_terminal_command")
    (hcmd : req.command = "")
    (hdeny : ∀ d ∈ opts.command_denylist, d ≠ "")
    (hallow : ∀ a ∈ opts.command_allowlist, a ≠ "") :
    evaluate_permission opts req ≠ PermissionStatus.denied ∧
    (opts.yolo_mode = true → opts.command_allowlist ≠ [] →
      evaluate_permission opts req = PermissionStatus.needs_confirmation) := by
  have hdany : opts.command_denylist.any (fun d => pyIn d req.command) = false := by
    rw [List.any_eq_false]
    intro d hdm
    rw [hcmd, pyIn_empty_haystack d (hdeny d hdm)]
    exact Bool.false_ne_true
  have haany : opts.command_allowlist.any (fun a => pyIn a req.command) = false := by
    rw [List.any_eq_false]
    intro a ham
    rw [hcmd, pyIn_empty_haystack a (hallow a ham)]
    exact Bool.false_ne_true
  have hrm : pyIn "rm -rf /" req.command = false := by
    rw [hcmd]
    exact pyIn_empty_haystack "rm -rf /" (by decide)
  unfold evaluate_permission
  rw [if_neg (by intro hx; rw [hx.2.2] at hdany; exact Bool.true_eq_false.mp hdany)]
  rw [if_neg (by intro hx; rw [hop] at hx; exact absurd hx.1 (by decide))]
  constructor
  · split_ifs <;> simp_all
  · intro hyolo hne
    rw [hyolo, if_pos rfl, if_pos hop, if_pos ⟨hne, by rw [haany]; exact Bool.false_ne_true⟩]
    rw [hrm]
    rfl

/-- Witness for `empty_command_no_match` at a concrete policy. -/
theorem empty_command_witness :
    evaluate_permission ⟨true, ["ls"], ["rm"], true⟩
      ⟨"run_terminal_command", [("command", "")]⟩ ≠ PermissionStatus.denied ∧
    evaluate_permission ⟨true, ["ls"], ["rm"], true⟩
      ⟨"run_terminal_command", [("command", "")]⟩ = PermissionStatus.needs_confirmation := by
  have h := empty_command_no_match ⟨true, ["ls"], ["rm"], true⟩
    ⟨"run_terminal_command", [("command", "")]⟩ rfl rfl
    (by decide) (by decide)
  exact ⟨h.1, h.2 rfl (by decide)⟩

/-- Claim C7 (counterexample): applying an empty edit mapping is not the
identity on every string: a document with a trailing newline loses it,
because the code rejoins `splitlines()` output with `"\n"`. -/
theorem empty_edits_counterexample :
    apply_line_based_edit "a\n" [] ≠ "a\n" ∧ apply_line_based_edit "a\n" [] = "a" := by
  decide

/-- Claim C7 (amended): applying an empty edit mapping returns the document
with its lines rejoined by `"\n"`; this equals the original exactly when the
original is already the `"\n"`-join of its lines (no trailing line
terminator, `"\n"` as the only separator). -/
theorem empty_edits_identity (text : String)
    (h : joinLines (pySplitlines text) = text) :
    apply_line_based_edit text [] = text := by
  unfold apply_line_based_edit applyLineEditsCore sortEditsDesc
  simpa using h

/-- Witness for `empty_edits_identity` on a two-line document. -/
theorem empty_edits_identity_witness :
    joinLines (pySplitlines "a\nb") = "a\nb" ∧ apply_line_based_edit "a\nb" [] = "a\nb" :=
  ⟨by decide, empty_edits_identity "a\nb" (by decide)⟩

/-- Claim C6 (counterexample): the edit `{"10-12": "X"}` on a 5-line document
is not clamped to the last line; the document comes back unchanged. -/
theorem out_of_bounds_counterexample :
    apply_line_based_edit "l1\nl2\nl3\nl4\nl5" [("10-12", "X")] = "l1\nl2\nl3\nl4\nl5" ∧
    apply_line_based_edit "l1\nl2\nl3\nl4\nl5" [("10-12", "X")] ≠ "l1\nl2\nl3\nl4\nX" := by
  decide

/-- Claim C6 (amended): applying the single edit `{"10-12": r}` to a 5-line
document skips the range entirely and returns the document unchanged (as
rejoined lines) rather than raising: only the end index is clamped (to 5),
the start (10) is not, and a start above the clamped end is dropped by the
inverted-range check. -/
theorem out_of_bounds_range_skipped (content r : String)
    (h : (pySplitlines content).length = 5) :
    apply_line_based_edit content [("10-12", r)] = joinLines (pySplitlines content) := by
  have hp : parseLineRange "10-12" = some (10, 12) := by decide
  unfold apply_line_based_edit applyLineEditsCore
  simp only [sortEditsDesc, insertDesc, List.foldl_cons, List.foldl_nil]
  unfold applyRangeEdit
  rw [hp, h]
  norm_num

/-- Witness for `out_of_bounds_range_skipped` on a concrete 5-line document. -/
theorem out_of_bounds_range_skipped_witness :
    (pySplitlines "a\nb\nc\nd\ne").length = 5 ∧
    apply_line_based_edit "a\nb\nc\nd\ne" [("10-12", "X")] =
      joinLines (pySplitlines "a\nb\nc\nd\ne") :=
  ⟨by decide, out_of_bounds_range_skipped "a\nb\nc\nd\ne" "X" (by decide)⟩

/-- Witness for `non_terminal_never_denied` on an unknown operation. -/
theorem non_terminal_never_denied_witness :
    evaluate_permission ⟨false, [], ["rm"], true⟩ ⟨"edit_file", [("path", "x")]⟩ =
        PermissionStatus.granted ∨
    evaluate_permission ⟨false, [], ["rm"], true⟩ ⟨"edit_file", [("path", "x")]⟩ =
        PermissionStatus.needs_confirmation :=
  non_terminal_never_denied ⟨false, [], ["rm"], true⟩ ⟨"edit_file", [("path", "x")]⟩
    (by decide)

end CursorAgent
